import Mathlib

/-!
Verification of the ilo-toki chat client state engine.

This file embeds the state-manipulating core of the program (the entity
store, the sync-engine event handlers, the modal input controller and the
auth form negotiator) as executable Lean definitions, translated directly
from the Rust source in src/main.rs, and proves or refutes the stated
properties of the specification against them.

Modelling conventions:
- Rust u64 ids are modelled as Nat.
- Rust HashMap is modelled as an association list (List (Nat times value));
  insert overwrites in place, remove deletes the entry, lookup scans.
  The relevant code never iterates a map, so ordering is immaterial.
- Rust String is modelled as List Char; the byte length of its UTF-8
  encoding is computed with Char.utf8Size.
- Rust usize arithmetic that can underflow is modelled explicitly: release
  builds wrap modulo 2^64 (usizeWrapSub1 below); debug builds panic there.
- A Rust panic (assert failure, unwrap on None, parse unwrap) is modelled
  by returning none from the embedded function.
-/

namespace IloToki

/-- Largest value of a 64-bit usize; usize arithmetic wraps modulo 2^64
in release builds. -/
def USIZE_MAX : Nat := 2 ^ 64 - 1

/-- Wrapping subtraction of 1 on usize, as performed by release builds;
debug builds panic when the argument is 0. -/
def usizeWrapSub1 (n : Nat) : Nat :=
  if n = 0 then USIZE_MAX else n - 1

/-- Lookup in an association-list model of a Rust HashMap. -/
def mapGet {α : Type} (k : Nat) : List (Nat × α) → Option α
  | [] => none
  | (k2, v) :: rest => if k2 = k then some v else mapGet k rest

/-- Insert in an association-list model of a Rust HashMap: overwrites the
entry in place when the key is present, appends otherwise. -/
def mapInsert {α : Type} (k : Nat) (v : α) : List (Nat × α) → List (Nat × α)
  | [] => [(k, v)]
  | (k2, v2) :: rest =>
    if k2 = k then (k2, v) :: rest else (k2, v2) :: mapInsert k v rest

/-- Remove in an association-list model of a Rust HashMap. -/
def mapRemove {α : Type} (k : Nat) : List (Nat × α) → List (Nat × α)
  | [] => []
  | (k2, v2) :: rest =>
    if k2 = k then rest else (k2, v2) :: mapRemove k rest

/-- In-place mutation through get_mut: apply f to the value stored at k,
leave the map unchanged when k is absent. -/
def mapModify {α : Type} (k : Nat) (f : α → α) : List (Nat × α) → List (Nat × α)
  | [] => []
  | (k2, v) :: rest =>
    if k2 = k then (k2, f v) :: rest else (k2, v) :: mapModify k f rest

/-- First index of x in a list, as computed by the search loops in the
GuildRemovedFromList and DeletedMessage branches of receive_events. -/
def findIndexOf (x : Nat) : List Nat → Option Nat
  | [] => none
  | y :: ys => if y = x then some 0 else (findIndexOf x ys).map (· + 1)

/-- Byte length of the UTF-8 encoding of a string modelled as List Char
(Rust String::len). -/
def byteLen : List Char → Nat
  | [] => 0
  | c :: cs => c.utf8Size + byteLen cs

/-- Rust str::is_char_boundary on the List Char model: a byte position is
a boundary when it is 0, the total byte length, or the start of a
character; positions beyond the byte length are not boundaries. -/
def isCharBoundary : List Char → Nat → Bool
  | _, 0 => true
  | [], _ + 1 => false
  | c :: cs, p + 1 =>
    if p + 1 < c.utf8Size then false else isCharBoundary cs (p + 1 - c.utf8Size)

/-! ## Data model (section 3 of the spec), translated from the struct
definitions in src/main.rs.  Strings are List Char. -/

/-- Contents of a received message; the program materializes only text. -/
inductive MessageContent : Type
  | Text (s : List Char)
deriving DecidableEq

/-- A received message (struct Message). -/
structure Message where
  id : Nat
  author_id : Nat
  override_username : Option (List Char)
  content : MessageContent
  timestamp : Nat
  edited_timestamp : Option Nat
deriving DecidableEq

/-- A member of a guild (struct Member). -/
structure Member where
  name : List Char
  is_bot : Bool
deriving DecidableEq

/-- A channel (struct Channel). -/
structure Channel where
  id : Nat
  guild_id : Nat
  name : List Char
  scroll_selected : Nat
  messages_map : List (Nat × Message)
  messages_list : List Nat
deriving DecidableEq

/-- A guild (struct Guild). -/
structure Guild where
  id : Nat
  channels_list : List Nat
  channels_select : Option Nat
  channels_map : List (Nat × Channel)
  name : List Char
  current_channel : Option Nat
deriving DecidableEq

/-- The current mode of the application (enum AppMode). -/
inductive AppMode : Type
  | TextNormal | TextInsert | Command | Scroll | Delete
  | GuildSelect | ChannelSelect | GuildLeave
deriving DecidableEq

/-- The application state (struct AppState). -/
structure AppState where
  mode : AppMode
  users : List (Nat × Member)
  guilds_map : List (Nat × Guild)
  guilds_list : List Nat
  guilds_select : Option Nat
  current_guild : Option Nat
  current_user : Nat
  editing : Bool
  input : List Char
  input_byte_pos : Nat
  input_char_pos : Nat
  old_input : List Char
  old_input_byte_pos : Nat
  old_input_char_pos : Nat
  command : List Char
  command_byte_pos : Nat
  command_char_pos : Nat
deriving DecidableEq

/-- AppState::get_channel_mut read path: resolve a channel through the
guild map and then the channels map of that guild. -/
def getChannel (state : AppState) (guild_id channel_id : Nat) : Option Channel :=
  match mapGet guild_id state.guilds_map with
  | none => none
  | some guild => mapGet channel_id guild.channels_map

/-- AppState::get_channel_mut write path: mutate the resolved channel in
place; when the channel is not tracked the state is unchanged. -/
def modifyChannel (state : AppState) (guild_id channel_id : Nat)
    (f : Channel → Channel) : AppState :=
  match getChannel state guild_id channel_id with
  | none => state
  | some _ =>
    { state with
      guilds_map :=
        mapModify guild_id
          (fun guild =>
            { guild with channels_map := mapModify channel_id f guild.channels_map })
          state.guilds_map }

/-- AppState::current_channel: chase the current-guild and then the
current-channel pointer. -/
def currentChannel (state : AppState) : Option Channel :=
  match state.current_guild with
  | none => none
  | some gid =>
    match mapGet gid state.guilds_map with
    | none => none
    | some guild =>
      match guild.current_channel with
      | none => none
      | some cid => mapGet cid guild.channels_map

/-- AppState::current_channel_mut write path: mutate the channel reached
by chasing the current-guild and current-channel pointers, in place. -/
def modifyCurrentChannel (state : AppState) (f : Channel → Channel) : AppState :=
  match state.current_guild with
  | none => state
  | some gid =>
    match mapGet gid state.guilds_map with
    | none => state
    | some guild =>
      match guild.current_channel with
      | none => state
      | some cid =>
        match mapGet cid guild.channels_map with
        | none => state
        | some _ =>
          { state with
            guilds_map :=
              mapModify gid
                (fun g => { g with channels_map := mapModify cid f g.channels_map })
                state.guilds_map }

/-! ## Sync engine: event handlers from receive_events in src/main.rs. -/

/-- The GuildRemovedFromList branch of receive_events: remove the guild
from the map, search the ordered list for its index, clear current_guild
when it pointed at the removed guild, then remove the list entry and
clear the selection index only when it equals the removed index. -/
def guildRemovedFromList (state : AppState) (guild_id : Nat) : AppState :=
  let s1 := { state with guilds_map := mapRemove guild_id state.guilds_map }
  let index := findIndexOf guild_id s1.guilds_list
  let s2 :=
    match s1.current_guild with
    | some id => if id = guild_id then { s1 with current_guild := none } else s1
    | none => s1
  match index with
  | some i =>
    let s3 := { s2 with guilds_list := s2.guilds_list.eraseIdx i }
    match s3.guilds_select with
    | some j => if i = j then { s3 with guilds_select := none } else s3
    | none => s3
  | none => s2

/-- The body of the DeletedMessage branch, acting on the resolved channel:
remove the id from the map, find it in the ordered list, remove that list
entry, and clamp the scroll offset with a wrapping usize subtraction
(release builds wrap to 2^64 - 1 when the list became empty; debug builds
panic there). -/
def deleteInChannel (ch : Channel) (id : Nat) : Channel :=
  let ch1 := { ch with messages_map := mapRemove id ch.messages_map }
  match findIndexOf id ch1.messages_list with
  | some i =>
    let l := ch1.messages_list.eraseIdx i
    let ch2 := { ch1 with messages_list := l }
    if ch2.scroll_selected ≥ l.length then
      { ch2 with scroll_selected := usizeWrapSub1 l.length }
    else ch2
  | none => ch1

/-- The DeletedMessage branch of receive_events. -/
def deletedMessage (state : AppState) (guild_id channel_id id : Nat) : AppState :=
  modifyChannel state guild_id channel_id (fun ch => deleteInChannel ch id)

/-- The body of the EditedMessage branch on the resolved channel: when the
message id is tracked and its content is text, replace the text and set
the edit timestamp. -/
def editInChannel (ch : Channel) (id : Nat) (text : List Char) (edited_at : Nat) : Channel :=
  { ch with
    messages_map :=
      mapModify id
        (fun m =>
          match m.content with
          | MessageContent.Text _ =>
            { m with content := MessageContent.Text text,
                     edited_timestamp := some edited_at })
        ch.messages_map }

/-- The EditedMessage branch of receive_events; new_content carries the
text of the new FormattedText when present. -/
def editedMessage (state : AppState) (guild_id channel_id id : Nat)
    (new_content : Option (List Char)) (edited_at : Nat) : AppState :=
  match getChannel state guild_id channel_id with
  | none => state
  | some _ =>
    match new_content with
    | none => state
    | some text => modifyChannel state guild_id channel_id
      (fun ch => editInChannel ch id text edited_at)

/-- Content of a raw protocol message before materialization; the inner
Option mirrors TextContent.content, whose FormattedText is flattened to
its text. -/
inductive RawContent : Type
  | TextMessage (text : Option (List Char))
  | EmbedMessage | AttachmentMessage | PhotoMessage
  | InviteRejected | InviteAccepted | RoomUpgradedToGuild
deriving DecidableEq

/-- A raw protocol message (harmony Message); content mirrors the nested
Option Content / Option content fields, override_username flattens
overrides.and_then username. -/
structure RawMessage where
  author_id : Nat
  override_username : Option (List Char)
  content : Option (Option RawContent)
  created_at : Nat
  edited_at : Option Nat
deriving DecidableEq

/-- Insert into a Vec at an index (Vec::insert); the handler guards the
call with index >= len, so the out-of-range panic cannot fire. -/
def listInsertAt {α : Type} (l : List α) (i : Nat) (x : α) : List α :=
  l.take i ++ x :: l.drop i

/-- The store-mutation part of handle_message: materialize a text message
into the resolved channel (append when the index is past the end,
otherwise insert at the index); untracked channels and unmaterialized
content kinds leave the store unchanged. -/
def handleMessageStore (state : AppState) (message : RawMessage)
    (guild_id channel_id message_id index : Nat) : AppState :=
  match getChannel state guild_id channel_id with
  | none => state
  | some _ =>
    match message.content with
    | some (some (RawContent.TextMessage (some text))) =>
      modifyChannel state guild_id channel_id fun channel =>
        let msg : Message :=
          { id := message_id
            author_id := message.author_id
            override_username := message.override_username
            content := MessageContent.Text text
            timestamp := message.created_at
            edited_timestamp := message.edited_at }
        let l :=
          if index ≥ channel.messages_list.length then
            channel.messages_list ++ [message_id]
          else
            listInsertAt channel.messages_list index message_id
        { channel with messages_list := l,
                       messages_map := mapInsert message_id msg channel.messages_map }
    | _ => state

/-- handle_message from src/main.rs: mutate the store as above, then
return the author id when the author is not in the users map, so the
caller can emit a fetch-author-profile intent.  The author check runs
regardless of whether the channel was tracked or the content was
materialized. -/
def handle_message (state : AppState) (message : RawMessage)
    (guild_id channel_id message_id index : Nat) : AppState × Option Nat :=
  let state2 := handleMessageStore state message guild_id channel_id message_id index
  (state2,
   if mapGet message.author_id state2.users = none then some message.author_id
   else none)

/-- The SentMessage branch of receive_events: handle the inner message
with index usize::MAX (append) when it is present; the second component
is the author id of the GetUser intent sent when handle_message reported
an unknown author. -/
def sentMessage (state : AppState) (guild_id channel_id message_id : Nat)
    (message : Option RawMessage) : AppState × Option Nat :=
  match message with
  | none => (state, none)
  | some m => handle_message state m guild_id channel_id message_id USIZE_MAX

/-! ## Fetch-result handlers from the command processor in main. -/

/-- The loop body of the ClientEvent::GetChannels branch applied to the
current guild: every fetched channel with a payload is pushed onto the
ordered list and inserted into the map, with no already-present check. -/
def applyFetchedChannels (guild : Guild) : List (Nat × Option (List Char)) → Guild
  | [] => guild
  | (_, none) :: rest => applyFetchedChannels guild rest
  | (cid, some cname) :: rest =>
    applyFetchedChannels
      { guild with
        channels_list := guild.channels_list ++ [cid]
        channels_map :=
          mapInsert cid
            { id := cid, guild_id := guild.id, name := cname, scroll_selected := 0
              messages_map := [], messages_list := [] }
            guild.channels_map }
      rest

/-- The ClientEvent::GetChannels branch of main: apply the fetched channel
list to the current guild when one is resolved. -/
def getChannelsApply (state : AppState)
    (channels : List (Nat × Option (List Char))) : AppState :=
  match state.current_guild with
  | none => state
  | some gid =>
    match mapGet gid state.guilds_map with
    | none => state
    | some _ =>
      { state with
        guilds_map :=
          mapModify gid (fun g => applyFetchedChannels g channels) state.guilds_map }

/-- The ClientEvent::JoinGuild branch of main after the join and get-guild
calls: when the guild payload is present, push its id onto the guild list
and insert a fresh record into the map, with no already-present check. -/
def joinGuildApply (state : AppState) (guild_id : Nat)
    (guild : Option (List Char)) : AppState :=
  match guild with
  | none => state
  | some gname =>
    { state with
      guilds_list := state.guilds_list ++ [guild_id]
      guilds_map :=
        mapInsert guild_id
          { id := guild_id, channels_list := [], channels_select := none
            channels_map := [], name := gname, current_channel := none }
          state.guilds_map }

/-! ## Scroll-mode key handlers from ui_events in src/main.rs. -/

/-- Scroll-up (k / Up) in Scroll mode: when the offset is below the list
length it is incremented, and when it has then reached the length a
GetMoreMessages intent is emitted carrying the id of the oldest loaded
message (first list entry resolved through the map).  The second
component is some payload exactly when the intent is sent. -/
def scrollUpKey (state : AppState) : AppState × Option (Option Nat) :=
  match currentChannel state with
  | none => (state, none)
  | some ch =>
    if ch.scroll_selected < ch.messages_list.length then
      let ch2 := { ch with scroll_selected := ch.scroll_selected + 1 }
      let intent :=
        if ch2.scroll_selected ≥ ch2.messages_list.length then
          some ((ch2.messages_list.head?.bind fun v => mapGet v ch2.messages_map).map
            fun m => m.id)
        else none
      (modifyCurrentChannel state fun _ => ch2, intent)
    else (state, none)

/-- Scroll-down (j / Down) in Scroll mode: decrement the offset when it is
positive. -/
def scrollDownKey (state : AppState) : AppState :=
  modifyCurrentChannel state fun ch =>
    if ch.scroll_selected > 0 then { ch with scroll_selected := ch.scroll_selected - 1 }
    else ch

/-- The e (edit) key in Scroll mode.  The scroll-selected message is at
list index len - scroll_selected - 1 (usize arithmetic: an underflowing
index is modelled as an out-of-range lookup, matching the release-build
wrap past the end of the list; debug builds panic).  When that message is
authored by the current user and is text, its text is swapped into the
input buffer, the previous buffer and cursors are saved, the editing flag
is set and the mode switches to Insert.  Both cursors are set from
temp.len() and temp.bytes().len(), which in Rust are both the BYTE length
of the text. -/
def scrollEditKey (state : AppState) : AppState :=
  match currentChannel state with
  | none => state
  | some ch =>
    let idx : Int := (ch.messages_list.length : Int) - (ch.scroll_selected : Int) - 1
    match (if 0 ≤ idx then ch.messages_list.get? idx.toNat else none).bind
        (fun v => mapGet v ch.messages_map) with
    | none => state
    | some msg =>
      if msg.author_id = state.current_user then
        match msg.content with
        | MessageContent.Text text =>
          { state with
            mode := AppMode.TextInsert
            editing := true
            old_input_byte_pos := state.input_byte_pos
            input_byte_pos := byteLen text
            old_input_char_pos := state.input_char_pos
            input_char_pos := byteLen text
            input := text
            old_input := state.input }
      else state

/-! ## Auth negotiator: the Form Enter branch of auth_ui_events. -/

/-- The typed kinds of auth form fields (enum AuthFormFieldType). -/
inductive AuthFormFieldType : Type
  | Text | Email | Number | Password | NewPassword
deriving DecidableEq

/-- A typed form value (form_fields::Field).  Bytes carries the string
whose UTF-8 bytes are sent; the encoding is injective so the string
itself stands for the byte vector. -/
inductive AuthField : Type
  | FString (s : List Char)
  | FNumber (n : Int)
  | FBytes (b : List Char)
deriving DecidableEq

/-- Rust signed integer parsing (str::parse for the numeric field):
an optional sign followed by at least one ASCII digit, within the 64-bit
signed range; anything else fails. -/
def parseNumber (s : List Char) : Option Int :=
  let signed : Bool × List Char :=
    match s with
    | '-' :: rest => (true, rest)
    | '+' :: rest => (false, rest)
    | _ => (false, s)
  let digits := signed.2
  if digits = [] then none
  else if digits.all Char.isDigit then
    let v : Nat := digits.foldl (fun acc c => acc * 10 + (c.toNat - 48)) 0
    let i : Int := if signed.1 then -(v : Int) else (v : Int)
    if -(2 ^ 63 : Int) ≤ i ∧ i ≤ 2 ^ 63 - 1 then some i else none
  else none

/-- The Enter branch of the auth Form handler: convert every field in
order to its typed value.  A field is (name, type, input, confirmation).
Returning some r models sending AuthStepResponse::Form(r); returning none
models a Rust panic aborting the handler (parse().unwrap() on a
non-numeric Number field, unwrap() on a missing confirmation, or the
assert_eq! on a NewPassword field differing from its confirmation). -/
def formSubmit :
    List (List Char × AuthFormFieldType × List Char × Option (List Char)) →
    Option (List AuthField)
  | [] => some []
  | (_, ty, input, input2) :: rest =>
    match ty with
    | AuthFormFieldType.Text => (formSubmit rest).map (AuthField.FString input :: ·)
    | AuthFormFieldType.Email => (formSubmit rest).map (AuthField.FString input :: ·)
    | AuthFormFieldType.Number =>
      match parseNumber input with
      | none => none
      | some n => (formSubmit rest).map (AuthField.FNumber n :: ·)
    | AuthFormFieldType.Password => (formSubmit rest).map (AuthField.FBytes input :: ·)
    | AuthFormFieldType.NewPassword =>
      match input2 with
      | none => none
      | some i2 =>
        if input = i2 then (formSubmit rest).map (AuthField.FBytes input :: ·)
        else none

/-! ## Input buffer: the TextInsert key handlers of ui_events.

The buffer is the text together with a byte cursor and a character
cursor.  The Rust handlers scan byte-by-byte with is_char_boundary to
step the byte cursor by exactly one character. -/

/-- An input buffer: text, byte cursor, character cursor (the input /
input_byte_pos / input_char_pos fields of AppState). -/
structure InputBuffer where
  text : List Char
  bytePos : Nat
  charPos : Nat
deriving DecidableEq

/-- The backward boundary scan: starting at distance i, grow the distance
until pos - i is a character boundary (the loop in the move-left and
backspace handlers).  Byte 0 is always a boundary, so the scan
terminates. -/
def scanBack (cs : List Char) (pos i : Nat) : Nat :=
  if isCharBoundary cs (pos - i) then i else scanBack cs pos (i + 1)
termination_by pos - i
decreasing_by
  have h0 : isCharBoundary cs 0 = true := by cases cs <;> rfl
  rename_i h
  have : pos - i ≠ 0 := fun he => h (he ▸ h0)
  omega

/-- The forward boundary scan of the move-right handler, with explicit
fuel: none models the Rust loop never finding a boundary (which cannot
happen under the guard bytePos < byte length, as proved below). -/
def scanFwd (cs : List Char) (pos : Nat) : Nat → Nat → Option Nat
  | _, 0 => none
  | i, fuel + 1 =>
    if isCharBoundary cs (pos + i) then some i else scanFwd cs pos (i + 1) fuel

/-- Rust String::insert at a byte index: walks the characters consuming
their byte widths; none models the panic on an index that is past the
end or not a character boundary. -/
def insertAtByte : List Char → Nat → Char → Option (List Char)
  | cs, 0, c => some (c :: cs)
  | [], _ + 1, _ => none
  | c0 :: cs, p + 1, c =>
    if p + 1 < c0.utf8Size then none
    else (insertAtByte cs (p + 1 - c0.utf8Size) c).map (c0 :: ·)

/-- Rust String::remove at a byte index: removes the character starting
at that byte index; none models the panic on an out-of-range index or a
non-boundary index. -/
def removeAtByte : List Char → Nat → Option (List Char)
  | [], _ => none
  | _ :: cs, 0 => some cs
  | c0 :: cs, p + 1 =>
    if p + 1 < c0.utf8Size then none
    else (removeAtByte cs (p + 1 - c0.utf8Size)).map (c0 :: ·)

/-- Move-left (Left in insert mode, h/Left in normal mode): when the byte
cursor is positive, scan back to the previous boundary and step both
cursors.  The char-cursor decrement is usize; under the invariant proved
below a positive byte cursor forces a positive char cursor, so the
subtraction never underflows. -/
def moveLeft (b : InputBuffer) : InputBuffer :=
  if 0 < b.bytePos then
    let i := scanBack b.text b.bytePos 1
    { b with bytePos := b.bytePos - i, charPos := b.charPos - 1 }
  else b

/-- Move-right (Right / l): when the byte cursor is below the byte
length, scan forward to the next boundary and step both cursors. -/
def moveRight (b : InputBuffer) : Option InputBuffer :=
  if b.bytePos < byteLen b.text then
    match scanFwd b.text b.bytePos 1 (byteLen b.text) with
    | some i => some { b with bytePos := b.bytePos + i, charPos := b.charPos + 1 }
    | none => none
  else some b

/-- Backspace: when the byte cursor is positive, step both cursors back
one character and remove the character now under the byte cursor. -/
def backspace (b : InputBuffer) : Option InputBuffer :=
  if 0 < b.bytePos then
    let i := scanBack b.text b.bytePos 1
    let pos := b.bytePos - i
    (removeAtByte b.text pos).map fun t =>
      { text := t, bytePos := pos, charPos := b.charPos - 1 }
  else some b

/-- Character insertion: insert at the byte cursor, advance the byte
cursor by the encoded width and the char cursor by one. -/
def insertChar (b : InputBuffer) (c : Char) : Option InputBuffer :=
  (insertAtByte b.text b.bytePos c).map fun t =>
    { text := t, bytePos := b.bytePos + c.utf8Size, charPos := b.charPos + 1 }

/-- The four editing operations of the input buffer. -/
inductive BufOp : Type
  | moveLeft | moveRight | backspace | insert (c : Char)

/-- One key stroke of the TextInsert handler on the buffer; none marks a
Rust panic or a diverging boundary scan, none of which are reachable
from a well-formed buffer (proved below). -/
def bufStep (b : InputBuffer) : BufOp → Option InputBuffer
  | BufOp.moveLeft => some (moveLeft b)
  | BufOp.moveRight => moveRight b
  | BufOp.backspace => backspace b
  | BufOp.insert c => insertChar b c

/-- A sequence of key strokes on the buffer. -/
def applyOps (b : InputBuffer) : List BufOp → Option InputBuffer
  | [] => some b
  | op :: ops => (bufStep b op).bind (applyOps · ops)

/-- The dual-cursor invariant of the input buffer: the char cursor counts
characters within the text, and the byte cursor is the byte length of the
characters before the char cursor. -/
def bufInv (b : InputBuffer) : Prop :=
  b.charPos ≤ b.text.length ∧ b.bytePos = byteLen (b.text.take b.charPos)

/-! ## Well-formedness of the paired list / map structures. -/

/-- Keys of an association list are distinct, as Rust HashMap guarantees
by construction. -/
def mapWF {α : Type} (l : List (Nat × α)) : Prop := (l.map Prod.fst).Nodup

/-- A channel is well formed when its ordered message list and its
message map track the same distinct ids (stated with list-bounded
quantifiers so that it is decidable on concrete channels). -/
def chanWF (ch : Channel) : Prop :=
  ch.messages_list.Nodup ∧ mapWF ch.messages_map ∧
    (∀ k ∈ ch.messages_list, mapGet k ch.messages_map ≠ none) ∧
    (∀ p ∈ ch.messages_map, p.1 ∈ ch.messages_list)

/-! ## Concrete states used to evaluate the handlers at specific inputs. -/

/-- A guild record with empty channel data, as built by the guild-list
loop in main. -/
def mkGuild (i : Nat) : Guild :=
  { id := i, channels_list := [], channels_select := none, channels_map := [],
    name := [], current_channel := none }

/-- A text message with the given id, author and text. -/
def mkTextMsg (i author : Nat) (text : List Char) : Message :=
  { id := i, author_id := author, override_username := none,
    content := MessageContent.Text text, timestamp := 0, edited_timestamp := none }

/-- A channel of guild 1 holding the given messages. -/
def mkChan (i : Nat) (msgs : List (Nat × Message)) (ids : List Nat)
    (scroll : Nat) : Channel :=
  { id := i, guild_id := 1, name := [], scroll_selected := scroll,
    messages_map := msgs, messages_list := ids }

/-- A base application state with the given guild data. -/
def mkState (gm : List (Nat × Guild)) (gl : List Nat) (gsel : Option Nat)
    (cur : Option Nat) (user : Nat) : AppState :=
  { mode := AppMode.TextNormal, users := [], guilds_map := gm, guilds_list := gl,
    guilds_select := gsel, current_guild := cur, current_user := user,
    editing := false, input := [], input_byte_pos := 0, input_char_pos := 0,
    old_input := [], old_input_byte_pos := 0, old_input_char_pos := 0,
    command := [], command_byte_pos := 0, command_char_pos := 0 }

/-- Guild list [1, 2] with the guild at index 1 selected. -/
def c1State : AppState :=
  mkState [(1, mkGuild 1), (2, mkGuild 2)] [1, 2] (some 1) none 0

/-- A channel containing the single message 1 with scroll offset 0. -/
def c3Chan : Channel := mkChan 10 [(1, mkTextMsg 1 7 ['a'])] [1] 0

/-- A guild wrapping a single current channel, as used by the concrete
states below. -/
def mkGuildWithChan (ch : Channel) : Guild :=
  { id := 1, channels_list := [ch.id], channels_select := none,
    channels_map := [(ch.id, ch)], name := [], current_channel := some ch.id }

/-- A state whose current channel holds messages [1, 2, 3] (oldest to
newest) with scroll offset 0. -/
def c5State : AppState :=
  mkState
    [(1, mkGuildWithChan (mkChan 10
      [(1, mkTextMsg 1 7 ['a']), (2, mkTextMsg 2 7 ['a']),
       (3, mkTextMsg 3 7 ['a'])] [1, 2, 3] 0))]
    [1] none (some 1) 0

/-- A state whose current channel holds one two-byte-character message
authored by the current user (id 7), scroll offset 0. -/
def c7State : AppState :=
  mkState
    [(1, mkGuildWithChan (mkChan 10 [(1, mkTextMsg 1 7 ['é'])] [1] 0))]
    [1] none (some 1) 7

/-- The same state with a different current user (id 8), so the scroll
selected message belongs to another author. -/
def c7StateOther : AppState :=
  mkState
    [(1, mkGuildWithChan (mkChan 10 [(1, mkTextMsg 1 7 ['é'])] [1] 0))]
    [1] none (some 1) 8

/-- A guild already tracking channel 5. -/
def c4Guild : Guild :=
  { id := 1, channels_list := [5], channels_select := none,
    channels_map := [(5, mkChan 5 [] [] 0)],
    name := [], current_channel := none }

/-- A state whose current guild already tracks channel 5. -/
def c4State : AppState :=
  mkState [(1, c4Guild)] [1] none (some 1) 0

/-- A two-message channel and its enclosing store, used to instantiate
the deletion theorem. -/
def c8Chan : Channel :=
  mkChan 10 [(1, mkTextMsg 1 7 ['a']), (2, mkTextMsg 2 7 ['b'])] [1, 2] 0

/-- The store holding c8Chan. -/
def c8State : AppState :=
  mkState [(1, mkGuildWithChan c8Chan)] [1] none (some 1) 0

/-- A raw text message from author 42. -/
def c10Raw : RawMessage :=
  { author_id := 42, override_username := none,
    content := some (some (RawContent.TextMessage (some ['h']))),
    created_at := 0, edited_at := none }

/-- The ids of the channels carried by a fetch result (the ones whose
payload is present). -/
def fetchedIds (chans : List (Nat × Option (List Char))) : List Nat :=
  chans.filterMap fun p => p.2.map fun _ => p.1

/-! ## Lemmas about the association-list map operations. -/

theorem mapGet_eq_none_of_not_mem {α : Type} {k : Nat} {l : List (Nat × α)}
    (h : k ∉ l.map Prod.fst) : mapGet k l = none := by
  induction l with
  | nil => rfl
  | cons p rest ih =>
    obtain ⟨k2, v⟩ := p
    simp only [List.map_cons, List.mem_cons] at h
    push_neg at h
    have hne : ¬ k2 = k := fun he => h.1 he.symm
    simp only [mapGet, if_neg hne, ih h.2]

theorem mapGet_mapModify_self {α : Type} (k : Nat) (f : α → α) (l : List (Nat × α)) :
    mapGet k (mapModify k f l) = (mapGet k l).map f := by
  induction l with
  | nil => rfl
  | cons p rest ih =>
    obtain ⟨k2, v⟩ := p
    by_cases h : k2 = k
    · simp [mapModify, mapGet, h]
    · simp [mapModify, mapGet, h, ih]

theorem mapGet_mapModify_ne {α : Type} {k k2 : Nat} (f : α → α) (l : List (Nat × α))
    (h : k2 ≠ k) : mapGet k2 (mapModify k f l) = mapGet k2 l := by
  induction l with
  | nil => rfl
  | cons p rest ih =>
    obtain ⟨k3, v⟩ := p
    by_cases h3 : k3 = k
    · have hne : ¬ k3 = k2 := fun he => h (he.symm.trans h3)
      simp only [mapModify, if_pos h3, mapGet, if_neg hne]
    · simp only [mapModify, if_neg h3, mapGet]
      by_cases h4 : k3 = k2
      · simp only [if_pos h4]
      · simp only [if_neg h4, ih]

theorem mapModify_of_get_none {α : Type} {k : Nat} {f : α → α} {l : List (Nat × α)}
    (h : mapGet k l = none) : mapModify k f l = l := by
  induction l with
  | nil => rfl
  | cons p rest ih =>
    obtain ⟨k2, v⟩ := p
    by_cases h2 : k2 = k
    · simp [mapGet, h2] at h
    · simp only [mapGet, if_neg h2] at h
      simp [mapModify, h2, ih h]

theorem mapModify_of_fix {α : Type} {k : Nat} {f : α → α} {l : List (Nat × α)} {v : α}
    (h : mapGet k l = some v) (hf : f v = v) : mapModify k f l = l := by
  induction l with
  | nil => simp [mapGet] at h
  | cons p rest ih =>
    obtain ⟨k2, v2⟩ := p
    by_cases h2 : k2 = k
    · simp only [mapGet, if_pos h2] at h
      obtain rfl : v2 = v := by injection h
      simp [mapModify, h2, hf]
    · simp only [mapGet, if_neg h2] at h
      simp [mapModify, h2, ih h]

theorem mapRemove_of_get_none {α : Type} {k : Nat} {l : List (Nat × α)}
    (h : mapGet k l = none) : mapRemove k l = l := by
  induction l with
  | nil => rfl
  | cons p rest ih =>
    obtain ⟨k2, v⟩ := p
    by_cases h2 : k2 = k
    · simp [mapGet, h2] at h
    · simp only [mapGet, if_neg h2] at h
      simp [mapRemove, h2, ih h]

theorem mapGet_mapRemove_self {α : Type} {k : Nat} {l : List (Nat × α)}
    (h : mapWF l) : mapGet k (mapRemove k l) = none := by
  induction l with
  | nil => rfl
  | cons p rest ih =>
    obtain ⟨k2, v⟩ := p
    obtain ⟨hnm, hwf⟩ := List.nodup_cons.mp h
    by_cases h2 : k2 = k
    · subst h2
      simp only [mapRemove, if_pos rfl]
      exact mapGet_eq_none_of_not_mem hnm
    · simp [mapRemove, mapGet, h2, ih hwf]

theorem mapGet_mapRemove_ne {α : Type} {k k2 : Nat} (l : List (Nat × α))
    (h : k2 ≠ k) : mapGet k2 (mapRemove k l) = mapGet k2 l := by
  induction l with
  | nil => rfl
  | cons p rest ih =>
    obtain ⟨k3, v⟩ := p
    by_cases h3 : k3 = k
    · have hne : ¬ k3 = k2 := fun he => h (he.symm.trans h3)
      simp only [mapRemove, if_pos h3, mapGet, if_neg hne, ih]
    · simp only [mapRemove, if_neg h3, mapGet]
      by_cases h4 : k3 = k2
      · simp only [if_pos h4]
      · simp only [if_neg h4, ih]

theorem mapGet_mapInsert_self {α : Type} (k : Nat) (v : α) (l : List (Nat × α)) :
    mapGet k (mapInsert k v l) = some v := by
  induction l with
  | nil => simp [mapInsert, mapGet]
  | cons p rest ih =>
    obtain ⟨k2, v2⟩ := p
    by_cases h2 : k2 = k
    · simp [mapInsert, mapGet, h2]
    · simp [mapInsert, mapGet, h2, ih]

theorem mem_of_mapGet_eq_some {α : Type} {k : Nat} {v : α} {l : List (Nat × α)}
    (h : mapGet k l = some v) : (k, v) ∈ l := by
  induction l with
  | nil => exact Option.noConfusion h
  | cons p rest ih =>
    obtain ⟨k2, v2⟩ := p
    by_cases h2 : k2 = k
    · subst h2
      simp only [mapGet, if_pos rfl] at h
      obtain rfl : v2 = v := by injection h
      exact List.mem_cons_self _ _
    · simp only [mapGet, if_neg h2] at h
      exact List.mem_cons_of_mem _ (ih h)

theorem findIndexOf_eq_none_of_not_mem {x : Nat} {l : List Nat} (h : x ∉ l) :
    findIndexOf x l = none := by
  induction l with
  | nil => rfl
  | cons y ys ih =>
    simp only [List.mem_cons] at h
    push_neg at h
    have hne : ¬ y = x := fun he => h.1 he.symm
    simp [findIndexOf, hne, ih h.2]

theorem findIndexOf_eraseIdx {x : Nat} {l : List Nat} (h : x ∈ l) :
    ∃ i, findIndexOf x l = some i ∧ l.eraseIdx i = l.erase x := by
  induction l with
  | nil => simp at h
  | cons y ys ih =>
    by_cases hy : y = x
    · exact ⟨0, by simp [findIndexOf, hy], by simp [hy, List.erase_cons]⟩
    · have hx : x ∈ ys := by
        rcases List.mem_cons.mp h with h1 | h1
        · exact absurd h1.symm hy
        · exact h1
      obtain ⟨i, hfi, hei⟩ := ih hx
      refine ⟨i + 1, by simp [findIndexOf, hy, hfi], ?_⟩
      simp [List.eraseIdx, List.erase_cons, hy, hei]

/-! ## Lemmas about channel resolution and in-place channel mutation. -/

theorem modifyChannel_of_none {s : AppState} {g c : Nat} (f : Channel → Channel)
    (h : getChannel s g c = none) : modifyChannel s g c f = s := by
  unfold modifyChannel
  rw [h]

theorem getChannel_modifyChannel_self {s : AppState} {g c : Nat} (f : Channel → Channel)
    {ch : Channel} (h : getChannel s g c = some ch) :
    getChannel (modifyChannel s g c f) g c = some (f ch) := by
  unfold modifyChannel
  rw [h]
  unfold getChannel at h ⊢
  cases hg : mapGet g s.guilds_map with
  | none =>
    simp only [hg] at h
    exact Option.noConfusion h
  | some guild =>
    simp only [hg] at h
    simp only [mapGet_mapModify_self, hg, Option.map_some']
    simp only [mapGet_mapModify_self, h, Option.map_some']

theorem getChannel_modifyChannel_other {s : AppState} {g c g2 c2 : Nat}
    (f : Channel → Channel) (h : ¬ (g2 = g ∧ c2 = c)) :
    getChannel (modifyChannel s g c f) g2 c2 = getChannel s g2 c2 := by
  unfold modifyChannel
  cases hch : getChannel s g c with
  | none => rfl
  | some ch =>
    unfold getChannel
    by_cases hg : g2 = g
    · subst hg
      have hc : c2 ≠ c := fun he => h ⟨rfl, he⟩
      simp only [mapGet_mapModify_self]
      cases hg2 : mapGet g2 s.guilds_map with
      | none => simp only [hg2, Option.map_none']
      | some guild =>
        simp only [hg2, Option.map_some', mapGet_mapModify_ne _ _ hc]
    · simp only [mapGet_mapModify_ne _ _ hg]

theorem modifyChannel_of_fix {s : AppState} {g c : Nat} {f : Channel → Channel}
    {ch : Channel} (h : getChannel s g c = some ch) (hf : f ch = ch) :
    modifyChannel s g c f = s := by
  unfold modifyChannel
  rw [h]
  unfold getChannel at h
  cases hg : mapGet g s.guilds_map with
  | none =>
    simp only [hg] at h
    exact Option.noConfusion h
  | some guild =>
    simp only [hg] at h
    have hin : mapModify c f guild.channels_map = guild.channels_map :=
      mapModify_of_fix h hf
    have hout : (fun gd : Guild =>
        { gd with channels_map := mapModify c f gd.channels_map }) guild = guild := by
      simp only [hin]
    rw [mapModify_of_fix hg hout]

theorem modifyChannel_frame (s : AppState) (g c : Nat) (f : Channel → Channel) :
    (modifyChannel s g c f).users = s.users ∧
    (modifyChannel s g c f).guilds_list = s.guilds_list ∧
    (modifyChannel s g c f).guilds_select = s.guilds_select ∧
    (modifyChannel s g c f).current_guild = s.current_guild ∧
    (modifyChannel s g c f).mode = s.mode ∧
    (modifyChannel s g c f).current_user = s.current_user := by
  unfold modifyChannel
  cases getChannel s g c with
  | none => exact ⟨rfl, rfl, rfl, rfl, rfl, rfl⟩
  | some ch => exact ⟨rfl, rfl, rfl, rfl, rfl, rfl⟩

/-! ## Claim theorems. -/

/-- Claim C1.  The claim states that after a GuildRemovedFromList event
the guild selection index is never out of range of the shrunk guild
list.  The code refutes it: the handler clears the selection only when
the removed index equals the selected index, so removing the guild at
index 0 of [1, 2] while index 1 is selected shrinks the list to [2] but
leaves the selection at 1, which is out of range (1 is not a valid
position of a one-element list).  This theorem evaluates the embedded
handler at that failing input. -/
theorem claim_C1_stale_selection :
    (guildRemovedFromList c1State 1).guilds_list = [2] ∧
    (guildRemovedFromList c1State 1).guilds_select = some 1 ∧
    ¬ 1 < (guildRemovedFromList c1State 1).guilds_list.length := by
  decide

/-- Claim C2.  The claim states that a form whose new-password field
differs from its confirmation, or whose numeric field is non-numeric, is
rejected locally with no state change and no fault.  The code refutes
it: the Enter handler runs assert_eq! on the two password strings and
parse().unwrap() on the numeric field, so both inputs make the handler
panic (modelled by formSubmit returning none), a fault that unwinds out
of the input task instead of a local rejection. -/
theorem claim_C2_form_submit_panics :
    formSubmit [([], AuthFormFieldType.NewPassword, ['a'], some ['b'])] = none ∧
    formSubmit [([], AuthFormFieldType.Number, ['x'], none)] = none ∧
    formSubmit [([], AuthFormFieldType.Number, ['4', '2'], none)] =
      some [AuthField.FNumber 42] := by
  decide

/-- Claim C3.  The claim states that shrinking the messages list clamps
the scroll offset down, never up, including when the deletion empties
the list.  The code refutes it at exactly that input: deleting the only
message of a channel executes scroll_selected = len - 1 with len = 0, a
usize underflow that wraps the offset up to 2^64 - 1 in release builds
(and panics in debug builds).  Scroll-up can also legitimately park the
offset at len itself (see the C5 scenario), contradicting the claimed
strict bound. -/
theorem claim_C3_scroll_clamp_underflow :
    (deleteInChannel c3Chan 1).messages_list = [] ∧
    (deleteInChannel c3Chan 1).scroll_selected = 2 ^ 64 - 1 := by
  decide

/-- Claim C4 counterexample.  The claim states that applying a
channel-list fetch result skips entities already present so that a
redundant fetch inserts no duplicate list entries.  Evaluating the
embedded GetChannels handler on a guild already tracking channel 5 with
a fetch result containing channel 5 again yields the ordered list
[5, 5]: a duplicate entry, so the claim is false. -/
theorem claim_C4_counterexample :
    (mapGet 1 (getChannelsApply c4State [(5, some ['x'])]).guilds_map).map
      Guild.channels_list = some [5, 5] ∧
    ¬ ((getChannelsApply c4State [(5, some ['x'])]).guilds_map.map
        (fun p => p.2.channels_list.Nodup)).all id := by
  decide

/-- Claim C5.  In Scroll mode on a channel with messages [1, 2, 3] and
offset 0, three scroll-up presses raise the offset to 3, the third press
emits exactly one GetMoreMessages intent carrying the oldest loaded
message id 1 as cursor, and a fourth press changes nothing and emits no
further intent. -/
theorem claim_C5_scroll_scenario :
    (currentChannel (scrollUpKey (scrollUpKey (scrollUpKey c5State).1).1).1).map
        Channel.scroll_selected = some 3 ∧
    (scrollUpKey c5State).2 = none ∧
    (scrollUpKey (scrollUpKey c5State).1).2 = none ∧
    (scrollUpKey (scrollUpKey (scrollUpKey c5State).1).1).2 = some (some 1) ∧
    (scrollUpKey (scrollUpKey (scrollUpKey (scrollUpKey c5State).1).1).1).1 =
      (scrollUpKey (scrollUpKey (scrollUpKey c5State).1).1).1 ∧
    (scrollUpKey (scrollUpKey (scrollUpKey (scrollUpKey c5State).1).1).1).2 = none := by
  decide

/-- Claim C7.  The first half holds: pressing e on another author's
message leaves the state unchanged.  The second half fails on the code:
pressing e on the current user's own text message containing the
two-byte character é swaps the text into the buffer and switches to
Insert, but sets the character offset from temp.len(), the BYTE length 2
of the one-character text, so the character offset does not equal the
count (1) of characters before the byte offset.  This theorem evaluates
the embedded handler at that failing input. -/
theorem claim_C7_edit_char_offset_bug :
    scrollEditKey c7StateOther = c7StateOther ∧
    (scrollEditKey c7State).mode = AppMode.TextInsert ∧
    (scrollEditKey c7State).editing = true ∧
    (scrollEditKey c7State).input = ['é'] ∧
    (scrollEditKey c7State).input_byte_pos = 2 ∧
    (scrollEditKey c7State).input_char_pos = 2 ∧
    ((scrollEditKey c7State).input.take (scrollEditKey c7State).input_char_pos).length
      = 1 := by
  decide

/-- The two components of deleteInChannel on a channel whose list
contains the id: the list loses its first occurrence of the id and the
map entry is removed, whichever clamp branch is taken. -/
theorem deleteInChannel_of_mem {ch : Channel} {id : Nat}
    (hmem : id ∈ ch.messages_list) :
    (deleteInChannel ch id).messages_list = ch.messages_list.erase id ∧
    (deleteInChannel ch id).messages_map = mapRemove id ch.messages_map := by
  obtain ⟨i, hfi, hei⟩ := findIndexOf_eraseIdx hmem
  unfold deleteInChannel
  simp only [hfi, hei]
  split
  · exact ⟨rfl, rfl⟩
  · exact ⟨rfl, rfl⟩

/-- Claim C8.  Deleting a message id present in a well-formed channel
removes it from exactly one position of the ordered list (the resulting
list is the erase of the id, one element shorter, no longer containing
the id) and removes it from the map, leaving every other map entry; a
deletion event for an id absent from the channel, or for an untracked
channel, leaves the whole store unchanged (including the scroll
offset). -/
theorem claim_C8_deleted_message (s : AppState) (g c id : Nat) :
    (getChannel s g c = none → deletedMessage s g c id = s) ∧
    ∀ ch, getChannel s g c = some ch → chanWF ch →
      ((id ∉ ch.messages_list → deletedMessage s g c id = s) ∧
       (id ∈ ch.messages_list →
         getChannel (deletedMessage s g c id) g c = some (deleteInChannel ch id) ∧
         (deleteInChannel ch id).messages_list = ch.messages_list.erase id ∧
         (deleteInChannel ch id).messages_list.length + 1 =
           ch.messages_list.length ∧
         id ∉ (deleteInChannel ch id).messages_list ∧
         mapGet id (deleteInChannel ch id).messages_map = none ∧
         ∀ k, k ≠ id → mapGet k (deleteInChannel ch id).messages_map =
           mapGet k ch.messages_map)) := by
  constructor
  · intro h
    unfold deletedMessage
    exact modifyChannel_of_none _ h
  · intro ch hch hwf
    constructor
    · intro hnm
      have hget : mapGet id ch.messages_map = none := by
        cases hg : mapGet id ch.messages_map with
        | none => rfl
        | some v => exact absurd (hwf.2.2.2 (id, v) (mem_of_mapGet_eq_some hg)) hnm
      have hfix : deleteInChannel ch id = ch := by
        unfold deleteInChannel
        simp only [mapRemove_of_get_none hget,
          findIndexOf_eq_none_of_not_mem hnm]
      unfold deletedMessage
      exact modifyChannel_of_fix hch hfix
    · intro hmem
      obtain ⟨hlist, hmap⟩ := deleteInChannel_of_mem hmem
      have hpos : 0 < ch.messages_list.length := List.length_pos_of_mem hmem
      refine ⟨?_, hlist, ?_, ?_, ?_, ?_⟩
      · unfold deletedMessage
        exact getChannel_modifyChannel_self _ hch
      · rw [hlist, List.length_erase_of_mem hmem]
        omega
      · rw [hlist]
        exact hwf.1.not_mem_erase
      · rw [hmap]
        exact mapGet_mapRemove_self hwf.2.1
      · intro k hk
        rw [hmap]
        exact mapGet_mapRemove_ne _ hk

/-- Witness for claim C8: the deletion theorem applied to the concrete
store c8State, discharging the channel-resolution, well-formedness and
membership hypotheses by computation. -/
theorem claim_C8_witness :
    getChannel (deletedMessage c8State 1 10 1) 1 10 = some (deleteInChannel c8Chan 1) ∧
    (deleteInChannel c8Chan 1).messages_list = [2] ∧
    deletedMessage c8State 1 10 99 = c8State := by
  have hwf : chanWF c8Chan := by
    unfold chanWF mapWF
    decide
  have h1 := (claim_C8_deleted_message c8State 1 10 1).2 c8Chan (by decide) hwf
  have h2 := (claim_C8_deleted_message c8State 1 10 99).2 c8Chan (by decide) hwf
  refine ⟨(h1.2 (by decide)).1, ?_, h2.1 (by decide)⟩
  rw [(h1.2 (by decide)).2.1]
  decide

/-- Claim C9.  Editing a tracked text message replaces only its content
and edit timestamp (the resulting map entry is literally the old message
with just those two fields changed, so id, author id, username override
and creation timestamp are preserved), leaves every other message of the
channel, the message order, the scroll offset, every other channel, and
all the top-level store fields unchanged; an edit for an unknown message
id, or for an untracked channel, leaves the store unchanged. -/
theorem claim_C9_edited_message (s : AppState) (g c id : Nat) (text : List Char)
    (t : Nat) :
    (getChannel s g c = none → editedMessage s g c id (some text) t = s) ∧
    ∀ ch, getChannel s g c = some ch →
      ((mapGet id ch.messages_map = none →
          editedMessage s g c id (some text) t = s) ∧
       ∀ m, mapGet id ch.messages_map = some m →
         getChannel (editedMessage s g c id (some text) t) g c =
           some (editInChannel ch id text t) ∧
         mapGet id (editInChannel ch id text t).messages_map =
           some { m with content := MessageContent.Text text,
                         edited_timestamp := some t } ∧
         (∀ k, k ≠ id → mapGet k (editInChannel ch id text t).messages_map =
           mapGet k ch.messages_map) ∧
         (editInChannel ch id text t).messages_list = ch.messages_list ∧
         (editInChannel ch id text t).scroll_selected = ch.scroll_selected ∧
         (∀ g2 c2, ¬ (g2 = g ∧ c2 = c) →
           getChannel (editedMessage s g c id (some text) t) g2 c2 =
             getChannel s g2 c2) ∧
         (editedMessage s g c id (some text) t).users = s.users ∧
         (editedMessage s g c id (some text) t).guilds_list = s.guilds_list ∧
         (editedMessage s g c id (some text) t).guilds_select = s.guilds_select ∧
         (editedMessage s g c id (some text) t).current_guild = s.current_guild) := by
  constructor
  · intro h
    unfold editedMessage
    rw [h]
  · intro ch hch
    have hred : editedMessage s g c id (some text) t =
        modifyChannel s g c (fun ch2 => editInChannel ch2 id text t) := by
      unfold editedMessage
      rw [hch]
    constructor
    · intro hnone
      have hfix : editInChannel ch id text t = ch := by
        unfold editInChannel
        rw [mapModify_of_get_none hnone]
      rw [hred]
      exact modifyChannel_of_fix hch hfix
    · intro m hm
      refine ⟨?_, ?_, ?_, rfl, rfl, ?_, ?_, ?_, ?_, ?_⟩
      · rw [hred]
        exact getChannel_modifyChannel_self _ hch
      · unfold editInChannel
        simp only [mapGet_mapModify_self, hm, Option.map_some']
      · intro k hk
        unfold editInChannel
        exact mapGet_mapModify_ne _ _ hk
      · intro g2 c2 hne
        rw [hred]
        exact getChannel_modifyChannel_other _ hne
      · rw [hred]
        exact (modifyChannel_frame s g c _).1
      · rw [hred]
        exact (modifyChannel_frame s g c _).2.1
      · rw [hred]
        exact (modifyChannel_frame s g c _).2.2.1
      · rw [hred]
        exact (modifyChannel_frame s g c _).2.2.2.1

/-- Witness for claim C9: the edit theorem applied to the concrete store
c8State (message 1 of channel 10), discharging the channel-resolution and
message-lookup hypotheses by computation. -/
theorem claim_C9_witness :
    getChannel (editedMessage c8State 1 10 1 (some ['z']) 5) 1 10 =
      some (editInChannel c8Chan 1 ['z'] 5) ∧
    mapGet 1 (editInChannel c8Chan 1 ['z'] 5).messages_map =
      some { mkTextMsg 1 7 ['a'] with
               content := MessageContent.Text ['z']
               edited_timestamp := some 5 } ∧
    editedMessage c8State 1 10 99 (some ['z']) 5 = c8State := by
  have h1 := (claim_C9_edited_message c8State 1 10 1 ['z'] 5).2 c8Chan (by decide)
  have h2 := (claim_C9_edited_message c8State 1 10 99 ['z'] 5).2 c8Chan (by decide)
  have h3 := h1.2 (mkTextMsg 1 7 ['a']) (by decide)
  exact ⟨h3.1, h3.2.1, h2.1 (by decide)⟩

/-- Claim C10.  handle_message returns a fetch-author intent exactly when
the author id is missing from the users map; the handler never changes
the users map, and when the channel is untracked the whole store is left
unchanged while the author check still runs (so a dropped message still
triggers the fetch for an unknown author). -/
theorem claim_C10_author_fetch (s : AppState) (msg : RawMessage)
    (g c mid idx : Nat) :
    ((handle_message s msg g c mid idx).2 = some msg.author_id ↔
      mapGet msg.author_id s.users = none) ∧
    (handle_message s msg g c mid idx).1.users = s.users ∧
    (getChannel s g c = none → (handle_message s msg g c mid idx).1 = s) := by
  have husers : (handleMessageStore s msg g c mid idx).users = s.users := by
    unfold handleMessageStore
    cases hch : getChannel s g c with
    | none => rfl
    | some ch =>
      rcases msg.content with _ | oc
      · rfl
      rcases oc with _ | rc
      · rfl
      cases rc with
      | TextMessage ot =>
        cases ot with
        | none => rfl
        | some text => exact (modifyChannel_frame s g c _).1
      | EmbedMessage => rfl
      | AttachmentMessage => rfl
      | PhotoMessage => rfl
      | InviteRejected => rfl
      | InviteAccepted => rfl
      | RoomUpgradedToGuild => rfl
  refine ⟨?_, husers, ?_⟩
  · show (if mapGet msg.author_id (handleMessageStore s msg g c mid idx).users = none
        then some msg.author_id else none) = some msg.author_id ↔
      mapGet msg.author_id s.users = none
    rw [husers]
    by_cases hu : mapGet msg.author_id s.users = none
    · rw [if_pos hu]
      exact iff_of_true rfl hu
    · rw [if_neg hu]
      exact iff_of_false (fun h => Option.noConfusion h) hu
  · intro h
    show handleMessageStore s msg g c mid idx = s
    unfold handleMessageStore
    rw [h]

/-- Witness for claim C10: the author-fetch theorem applied to the
concrete store c8State (author 42 unknown) and to an untracked channel
(guild 9), discharging the hypotheses by computation. -/
theorem claim_C10_witness :
    (handle_message c8State c10Raw 1 10 3 0).2 = some 42 ∧
    (handle_message c8State c10Raw 9 9 3 0).1 = c8State := by
  have h1 := claim_C10_author_fetch c8State c10Raw 1 10 3 0
  have h2 := claim_C10_author_fetch c8State c10Raw 9 9 3 0
  exact ⟨h1.1.mpr (by decide), h2.2.2 (by decide)⟩

/-- The ordered channel list after applying a fetch result is the old
list with every fetched id appended, present or not. -/
theorem applyFetchedChannels_list (guild : Guild)
    (chans : List (Nat × Option (List Char))) :
    (applyFetchedChannels guild chans).channels_list =
      guild.channels_list ++ fetchedIds chans := by
  induction chans generalizing guild with
  | nil => simp [applyFetchedChannels, fetchedIds]
  | cons p rest ih =>
    obtain ⟨cid, oc⟩ := p
    cases oc with
    | none => simp [applyFetchedChannels, fetchedIds, ih, List.filterMap_cons]
    | some cname =>
      simp [applyFetchedChannels, fetchedIds, ih, List.filterMap_cons]

/-- Claim C4 as amended.  Applying a channel-list fetch result to the
current guild appends every fetched channel id to the end of the ordered
list unconditionally - entities already present are NOT skipped, so a
redundant fetch duplicates list entries - and inserts or overwrites the
map entry; a join-guild result likewise appends the guild id to the guild
list and inserts a fresh guild record unconditionally. -/
theorem claim_C4_append_unconditional (s : AppState) (gid : Nat) (guild : Guild)
    (chans : List (Nat × Option (List Char)))
    (h1 : s.current_guild = some gid)
    (h2 : mapGet gid s.guilds_map = some guild) :
    mapGet gid (getChannelsApply s chans).guilds_map =
      some (applyFetchedChannels guild chans) ∧
    (applyFetchedChannels guild chans).channels_list =
      guild.channels_list ++ fetchedIds chans ∧
    ∀ gid2 gname,
      (joinGuildApply s gid2 (some gname)).guilds_list =
        s.guilds_list ++ [gid2] ∧
      mapGet gid2 (joinGuildApply s gid2 (some gname)).guilds_map =
        some { id := gid2, channels_list := [], channels_select := none,
               channels_map := [], name := gname, current_channel := none } := by
  refine ⟨?_, applyFetchedChannels_list guild chans, ?_⟩
  · unfold getChannelsApply
    simp only [h1, h2, mapGet_mapModify_self, Option.map_some']
  · intro gid2 gname
    exact ⟨rfl, mapGet_mapInsert_self _ _ _⟩

/-- Witness for claim C4: the amended theorem applied to the concrete
store c4State whose guild already tracks channel 5, discharging the
current-guild and guild-lookup hypotheses by computation; the redundant
fetch of channel 5 yields the duplicated list [5, 5]. -/
theorem claim_C4_witness :
    mapGet 1 (getChannelsApply c4State [(5, some ['x'])]).guilds_map =
      some (applyFetchedChannels c4Guild [(5, some ['x'])]) ∧
    (applyFetchedChannels c4Guild [(5, some ['x'])]).channels_list = [5, 5] := by
  have h := claim_C4_append_unconditional c4State 1 c4Guild [(5, some ['x'])]
    (by decide) (by decide)
  refine ⟨h.1, ?_⟩
  rw [h.2.1]
  decide

/-! ## The UTF-8 boundary structure of the input buffer.

The byte positions that are character boundaries of a text are exactly
the byte lengths of its prefixes; consecutive prefix byte lengths differ
by the width of one character, and nothing in between is a boundary. -/

theorem byteLen_append (l1 l2 : List Char) :
    byteLen (l1 ++ l2) = byteLen l1 + byteLen l2 := by
  induction l1 with
  | nil => simp [byteLen]
  | cons c cs ih => simp [byteLen, ih]; omega

theorem isCharBoundary_zero (cs : List Char) : isCharBoundary cs 0 = true := by
  cases cs <;> rfl

theorem isCharBoundary_cons_pos (c : Char) (cs : List Char) {p : Nat} (hp : 0 < p) :
    isCharBoundary (c :: cs) p =
      if p < c.utf8Size then false else isCharBoundary cs (p - c.utf8Size) := by
  cases p with
  | zero => omega
  | succ q => rfl

theorem boundary_of_prefix (cs : List Char) (k : Nat) :
    isCharBoundary cs (byteLen (cs.take k)) = true := by
  induction cs generalizing k with
  | nil => simp [byteLen, isCharBoundary_zero]
  | cons c cs ih =>
    cases k with
    | zero => simp [byteLen, isCharBoundary_zero]
    | succ k =>
      have hsz := Char.utf8Size_pos c
      have hpos : 0 < byteLen ((c :: cs).take (k + 1)) := by
        simp only [List.take_succ_cons, byteLen]
        omega
      rw [isCharBoundary_cons_pos c cs hpos]
      simp only [List.take_succ_cons, byteLen]
      have hlt : ¬ c.utf8Size + byteLen (cs.take k) < c.utf8Size := by omega
      rw [if_neg hlt, Nat.add_sub_cancel_left]
      exact ih k

theorem boundary_exists_prefix (cs : List Char) :
    ∀ p, isCharBoundary cs p = true →
      ∃ k, k ≤ cs.length ∧ p = byteLen (cs.take k) := by
  induction cs with
  | nil =>
    intro p hp
    cases p with
    | zero => exact ⟨0, Nat.le_refl _, rfl⟩
    | succ q => exact Bool.noConfusion hp
  | cons c cs ih =>
    intro p hp
    cases p with
    | zero => exact ⟨0, Nat.zero_le _, rfl⟩
    | succ q =>
      rw [isCharBoundary_cons_pos c cs (Nat.succ_pos q)] at hp
      by_cases hlt : q + 1 < c.utf8Size
      · rw [if_pos hlt] at hp
        exact Bool.noConfusion hp
      · rw [if_neg hlt] at hp
        obtain ⟨k, hk, he⟩ := ih _ hp
        refine ⟨k + 1, by simpa using Nat.succ_le_succ hk, ?_⟩
        simp only [List.take_succ_cons, byteLen]
        omega

theorem byteLen_take_succ (cs : List Char) (k : Nat) (h : k < cs.length) :
    byteLen (cs.take (k + 1)) =
      byteLen (cs.take k) + (cs.get ⟨k, h⟩).utf8Size := by
  induction cs generalizing k with
  | nil => simp at h
  | cons c cs ih =>
    cases k with
    | zero => simp [byteLen]
    | succ k =>
      have hk : k < cs.length := by simpa using h
      simp only [List.take_succ_cons, byteLen, List.get_cons_succ, ih k hk]
      omega

theorem byteLen_take_le_succ (cs : List Char) (k : Nat) :
    byteLen (cs.take k) ≤ byteLen (cs.take (k + 1)) := by
  by_cases h : k < cs.length
  · rw [byteLen_take_succ cs k h]
    exact Nat.le_add_right _ _
  · have hle : cs.length ≤ k := Nat.le_of_not_lt h
    rw [List.take_of_length_le hle, List.take_of_length_le (Nat.le_succ_of_le hle)]

theorem byteLen_take_mono (cs : List Char) {k k2 : Nat} (h : k ≤ k2) :
    byteLen (cs.take k) ≤ byteLen (cs.take k2) := by
  induction k2 with
  | zero =>
    obtain rfl : k = 0 := Nat.le_zero.mp h
    exact Nat.le_refl _
  | succ k2 ih =>
    rcases Nat.lt_or_ge k (k2 + 1) with hlt | hge
    · exact Nat.le_trans (ih (Nat.lt_succ_iff.mp hlt)) (byteLen_take_le_succ cs k2)
    · obtain rfl : k = k2 + 1 := Nat.le_antisymm h hge
      exact Nat.le_refl _

theorem not_boundary_between (cs : List Char) {k p : Nat} (_hk : k < cs.length)
    (h1 : byteLen (cs.take k) < p) (h2 : p < byteLen (cs.take (k + 1))) :
    isCharBoundary cs p = false := by
  cases hb : isCharBoundary cs p with
  | false => rfl
  | true =>
    obtain ⟨k2, hk2, he⟩ := boundary_exists_prefix cs p hb
    rcases Nat.lt_or_ge k2 (k + 1) with hlt | hge
    · have := byteLen_take_mono cs (Nat.lt_succ_iff.mp hlt)
      omega
    · have := byteLen_take_mono cs hge
      omega

/-! ## The boundary scans land exactly one character away. -/

theorem scanBack_eq (cs : List Char) (pos j : Nat)
    (hb : isCharBoundary cs (pos - j) = true) :
    ∀ d i, j - i = d → i ≤ j →
      (∀ i2, i ≤ i2 → i2 < j → isCharBoundary cs (pos - i2) = false) →
      scanBack cs pos i = j := by
  intro d
  induction d with
  | zero =>
    intro i hd hij _
    obtain rfl : i = j := by omega
    rw [scanBack, if_pos hb]
  | succ d ih =>
    intro i hd hij hmin
    have hij2 : i < j := by omega
    have hfalse : isCharBoundary cs (pos - i) = false :=
      hmin i (Nat.le_refl i) hij2
    rw [scanBack, hfalse]
    simp only [Bool.false_eq_true, if_false]
    exact ih (i + 1) (by omega) (by omega)
      (fun i2 h1 h2 => hmin i2 (by omega) h2)

theorem scanFwd_eq (cs : List Char) (pos j : Nat)
    (hb : isCharBoundary cs (pos + j) = true) :
    ∀ d i fuel, j - i = d → i ≤ j → j - i < fuel →
      (∀ i2, i ≤ i2 → i2 < j → isCharBoundary cs (pos + i2) = false) →
      scanFwd cs pos i fuel = some j := by
  intro d
  induction d with
  | zero =>
    intro i fuel hd hij hfuel _
    obtain rfl : i = j := by omega
    obtain ⟨f, rfl⟩ : ∃ f, fuel = f + 1 := ⟨fuel - 1, by omega⟩
    rw [scanFwd, if_pos hb]
  | succ d ih =>
    intro i fuel hd hij hfuel hmin
    have hij2 : i < j := by omega
    obtain ⟨f, rfl⟩ : ∃ f, fuel = f + 1 := ⟨fuel - 1, by omega⟩
    have hfalse : isCharBoundary cs (pos + i) = false :=
      hmin i (Nat.le_refl i) hij2
    rw [scanFwd, hfalse]
    simp only [Bool.false_eq_true, if_false]
    exact ih (i + 1) f (by omega) (by omega) (by omega)
      (fun i2 h1 h2 => hmin i2 (by omega) h2)

/-- At the byte position of the prefix of k + 1 characters, the backward
scan started at distance 1 returns exactly the width of character k. -/
theorem scanBack_at_prefix (cs : List Char) (k : Nat) (hk : k < cs.length) :
    scanBack cs (byteLen (cs.take (k + 1))) 1 = (cs.get ⟨k, hk⟩).utf8Size := by
  have hsz := Char.utf8Size_pos (cs.get ⟨k, hk⟩)
  have hstep := byteLen_take_succ cs k hk
  have hb : isCharBoundary cs
      (byteLen (cs.take (k + 1)) - (cs.get ⟨k, hk⟩).utf8Size) = true := by
    have harith : byteLen (cs.take (k + 1)) - (cs.get ⟨k, hk⟩).utf8Size =
        byteLen (cs.take k) := by omega
    rw [harith]
    exact boundary_of_prefix cs k
  refine scanBack_eq cs _ _ hb ((cs.get ⟨k, hk⟩).utf8Size - 1) 1 rfl hsz ?_
  intro i2 h1 h2
  exact not_boundary_between cs hk (by omega) (by omega)

/-- At the byte position of the prefix of k characters (k below the
length), the forward scan started at distance 1 with the total byte
length as fuel returns exactly the width of character k. -/
theorem scanFwd_at_prefix (cs : List Char) (k : Nat) (hk : k < cs.length) :
    scanFwd cs (byteLen (cs.take k)) 1 (byteLen cs) =
      some (cs.get ⟨k, hk⟩).utf8Size := by
  have hsz := Char.utf8Size_pos (cs.get ⟨k, hk⟩)
  have hstep := byteLen_take_succ cs k hk
  have htot : byteLen (cs.take (k + 1)) ≤ byteLen cs := by
    have := byteLen_take_mono cs (Nat.le_of_lt (Nat.lt_succ_self k))
    calc byteLen (cs.take (k + 1)) ≤ byteLen (cs.take cs.length) :=
          byteLen_take_mono cs (by omega)
      _ = byteLen cs := by rw [List.take_length]
  have hb : isCharBoundary cs
      (byteLen (cs.take k) + (cs.get ⟨k, hk⟩).utf8Size) = true := by
    rw [← hstep]
    exact boundary_of_prefix cs (k + 1)
  refine scanFwd_eq cs _ _ hb ((cs.get ⟨k, hk⟩).utf8Size - 1) 1 (byteLen cs) rfl
    hsz (by omega) ?_
  intro i2 h1 h2
  exact not_boundary_between cs hk (by omega) (by omega)

/-! ## Byte-indexed string insertion and removal at prefix positions. -/

theorem insertAtByte_cons_pos (c : Char) (cs : List Char) {p : Nat} (hp : 0 < p)
    (x : Char) :
    insertAtByte (c :: cs) p x =
      if p < c.utf8Size then none
      else (insertAtByte cs (p - c.utf8Size) x).map (c :: ·) := by
  cases p with
  | zero => omega
  | succ q => rfl

theorem removeAtByte_cons_pos (c : Char) (cs : List Char) {p : Nat} (hp : 0 < p) :
    removeAtByte (c :: cs) p =
      if p < c.utf8Size then none
      else (removeAtByte cs (p - c.utf8Size)).map (c :: ·) := by
  cases p with
  | zero => omega
  | succ q => rfl

theorem insertAtByte_at_prefix (cs : List Char) (k : Nat) (x : Char)
    (hk : k ≤ cs.length) :
    insertAtByte cs (byteLen (cs.take k)) x = some (cs.take k ++ x :: cs.drop k) := by
  induction cs generalizing k with
  | nil =>
    obtain rfl : k = 0 := by simpa using hk
    rfl
  | cons c cs ih =>
    cases k with
    | zero => rfl
    | succ k =>
      have hsz := Char.utf8Size_pos c
      have hk2 : k ≤ cs.length := by simpa using hk
      have hpos : 0 < byteLen ((c :: cs).take (k + 1)) := by
        simp only [List.take_succ_cons, byteLen]
        omega
      rw [insertAtByte_cons_pos c cs hpos x]
      simp only [List.take_succ_cons, byteLen]
      have hlt : ¬ c.utf8Size + byteLen (cs.take k) < c.utf8Size := by omega
      rw [if_neg hlt, Nat.add_sub_cancel_left, ih k hk2]
      simp

theorem removeAtByte_at_prefix (cs : List Char) (k : Nat) (hk : k < cs.length) :
    removeAtByte cs (byteLen (cs.take k)) = some (cs.take k ++ cs.drop (k + 1)) := by
  induction cs generalizing k with
  | nil => simp at hk
  | cons c cs ih =>
    cases k with
    | zero => rfl
    | succ k =>
      have hsz := Char.utf8Size_pos c
      have hk2 : k < cs.length := by simpa using hk
      have hpos : 0 < byteLen ((c :: cs).take (k + 1)) := by
        simp only [List.take_succ_cons, byteLen]
        omega
      rw [removeAtByte_cons_pos c cs hpos]
      simp only [List.take_succ_cons, byteLen]
      have hlt : ¬ c.utf8Size + byteLen (cs.take k) < c.utf8Size := by omega
      rw [if_neg hlt, Nat.add_sub_cancel_left, ih k hk2]
      simp

/-! ## Each editing operation preserves the dual-cursor invariant. -/

theorem bufInv_charPos_pos {b : InputBuffer} (h : bufInv b) (hp : 0 < b.bytePos) :
    0 < b.charPos := by
  cases hc : b.charPos with
  | zero =>
    rw [h.2, hc] at hp
    simp [byteLen] at hp
  | succ k => exact Nat.succ_pos k

theorem moveLeft_inv {b : InputBuffer} (h : bufInv b) : bufInv (moveLeft b) := by
  unfold moveLeft
  by_cases hp : 0 < b.bytePos
  · rw [if_pos hp]
    obtain ⟨k, hk⟩ : ∃ k, b.charPos = k + 1 :=
      ⟨b.charPos - 1, by have := bufInv_charPos_pos h hp; omega⟩
    have hklen : k < b.text.length := by have := h.1; omega
    have hpos : b.bytePos = byteLen (b.text.take (k + 1)) := by rw [h.2, hk]
    have hscan : scanBack b.text b.bytePos 1 = (b.text.get ⟨k, hklen⟩).utf8Size := by
      rw [hpos]
      exact scanBack_at_prefix b.text k hklen
    have hstep := byteLen_take_succ b.text k hklen
    constructor
    · show b.charPos - 1 ≤ b.text.length
      omega
    · show b.bytePos - scanBack b.text b.bytePos 1 =
        byteLen (b.text.take (b.charPos - 1))
      rw [hscan, hpos, hk]
      simp only [Nat.add_sub_cancel]
      omega
  · rw [if_neg hp]
    exact h

theorem moveRight_some_inv {b : InputBuffer} (h : bufInv b) :
    ∃ b2, moveRight b = some b2 ∧ bufInv b2 := by
  unfold moveRight
  by_cases hlt : b.bytePos < byteLen b.text
  · rw [if_pos hlt]
    have hklen : b.charPos < b.text.length := by
      rcases Nat.lt_or_ge b.charPos b.text.length with h2 | h2
      · exact h2
      · have heq : b.charPos = b.text.length := Nat.le_antisymm h.1 h2
        rw [h.2, heq, List.take_length] at hlt
        omega
    have hscan : scanFwd b.text b.bytePos 1 (byteLen b.text) =
        some (b.text.get ⟨b.charPos, hklen⟩).utf8Size := by
      rw [h.2]
      exact scanFwd_at_prefix b.text b.charPos hklen
    rw [hscan]
    refine ⟨_, rfl, ?_, ?_⟩
    · show b.charPos + 1 ≤ b.text.length
      omega
    · show b.bytePos + (b.text.get ⟨b.charPos, hklen⟩).utf8Size =
        byteLen (b.text.take (b.charPos + 1))
      rw [h.2, byteLen_take_succ b.text b.charPos hklen]
  · rw [if_neg hlt]
    exact ⟨b, rfl, h⟩

theorem backspace_some_inv {b : InputBuffer} (h : bufInv b) :
    ∃ b2, backspace b = some b2 ∧ bufInv b2 := by
  unfold backspace
  by_cases hp : 0 < b.bytePos
  · rw [if_pos hp]
    obtain ⟨k, hk⟩ : ∃ k, b.charPos = k + 1 :=
      ⟨b.charPos - 1, by have := bufInv_charPos_pos h hp; omega⟩
    have hklen : k < b.text.length := by have := h.1; omega
    have hpos : b.bytePos = byteLen (b.text.take (k + 1)) := by rw [h.2, hk]
    have hscan : scanBack b.text b.bytePos 1 = (b.text.get ⟨k, hklen⟩).utf8Size := by
      rw [hpos]
      exact scanBack_at_prefix b.text k hklen
    have hstep := byteLen_take_succ b.text k hklen
    have harith : b.bytePos - scanBack b.text b.bytePos 1 =
        byteLen (b.text.take k) := by
      rw [hscan, hpos]
      omega
    simp only [harith, removeAtByte_at_prefix b.text k hklen, Option.map_some']
    have hlen : (b.text.take k).length = k := by
      rw [List.length_take]
      omega
    refine ⟨_, rfl, ?_, ?_⟩
    · show b.charPos - 1 ≤ (b.text.take k ++ b.text.drop (k + 1)).length
      rw [List.length_append, hlen, List.length_drop, hk]
      omega
    · show byteLen (b.text.take k) =
        byteLen ((b.text.take k ++ b.text.drop (k + 1)).take (b.charPos - 1))
      have htk : (b.text.take k ++ b.text.drop (k + 1)).take (b.charPos - 1) =
          b.text.take k := by
        rw [hk]
        simp only [Nat.add_sub_cancel]
        exact List.take_left' hlen
      rw [htk]
  · rw [if_neg hp]
    exact ⟨b, rfl, h⟩

theorem insertChar_some_inv {b : InputBuffer} (c : Char) (h : bufInv b) :
    ∃ b2, insertChar b c = some b2 ∧ bufInv b2 := by
  unfold insertChar
  rw [h.2, insertAtByte_at_prefix b.text b.charPos c h.1]
  have hlen : (b.text.take b.charPos).length = b.charPos := by
    rw [List.length_take]
    have := h.1
    omega
  refine ⟨_, rfl, ?_, ?_⟩
  · show b.charPos + 1 ≤ (b.text.take b.charPos ++ c :: b.text.drop b.charPos).length
    rw [List.length_append, hlen]
    simp
  · show byteLen (b.text.take b.charPos) + c.utf8Size =
      byteLen ((b.text.take b.charPos ++ c :: b.text.drop b.charPos).take
        (b.charPos + 1))
    have htk : (b.text.take b.charPos ++ c :: b.text.drop b.charPos).take
        (b.charPos + 1) = b.text.take b.charPos ++ [c] := by
      rw [List.take_append_eq_append_take, List.take_of_length_le (by omega), hlen]
      simp
    rw [htk, byteLen_append]
    simp [byteLen]

theorem bufStep_some_inv (b : InputBuffer) (op : BufOp) (h : bufInv b) :
    ∃ b2, bufStep b op = some b2 ∧ bufInv b2 := by
  cases op with
  | moveLeft => exact ⟨moveLeft b, rfl, moveLeft_inv h⟩
  | moveRight => exact moveRight_some_inv h
  | backspace => exact backspace_some_inv h
  | insert c => exact insertChar_some_inv c h

theorem applyOps_some_inv (ops : List BufOp) :
    ∀ b, bufInv b → ∃ b2, applyOps b ops = some b2 ∧ bufInv b2 := by
  induction ops with
  | nil => exact fun b h => ⟨b, rfl, h⟩
  | cons op ops ih =>
    intro b h
    obtain ⟨b1, hstep, hinv1⟩ := bufStep_some_inv b op h
    obtain ⟨b2, happ, hinv2⟩ := ih b1 hinv1
    refine ⟨b2, ?_, hinv2⟩
    unfold applyOps
    rw [hstep]
    exact happ

/-- Claim C6.  For every sequence of insert / backspace / move-left /
move-right operations applied to an input buffer seeded with arbitrary
text and both offsets zero, every operation succeeds (no panic, no
diverging boundary scan) and afterwards the byte offset is a valid
character boundary of the contents and equals the byte length of the
characters before the character offset, which stays within the text.
Since every prefix of a sequence is itself a sequence, the invariant
holds after every intermediate operation as well. -/
theorem claim_C6_input_buffer_invariant (text : List Char) (ops : List BufOp) :
    ∃ b, applyOps ⟨text, 0, 0⟩ ops = some b ∧
      isCharBoundary b.text b.bytePos = true ∧
      b.bytePos = byteLen (b.text.take b.charPos) ∧
      b.charPos ≤ b.text.length := by
  have h0 : bufInv ⟨text, 0, 0⟩ := ⟨Nat.zero_le _, by simp [byteLen]⟩
  obtain ⟨b, hb, hinv⟩ := applyOps_some_inv ops _ h0
  refine ⟨b, hb, ?_, hinv.2, hinv.1⟩
  rw [hinv.2]
  exact boundary_of_prefix b.text b.charPos

end IloToki
